import Mathlib

/-!
Verification of the RootAgent repository's core control logic against its
specification: the agent loop (`backend/app/agent/agent.py`), the code
executor and definition tracker (`backend/app/agent/executor.py`), the
history windower (`backend/app/services/redis_store.py`), and the legacy
loop variant (`src/agent.py`).

External collaborators (the Python standard library's `ast`/`textwrap`,
the text-generation provider, the smolagents sandbox, the Redis client)
are modelled as oracles/parameters; the repository's own control logic is
embedded directly from the source.
-/

set_option maxRecDepth 10000

namespace RootAgent

/-! ## Data model: messages (backend/app/models/chat.py)

`Message` keeps the fields the windowing algorithm reads (`role`,
`content`, `is_reasoning`); `message_id` and `timestamp` play no role in
any claim and are omitted. -/

structure Message where
  role : String
  content : String
  is_reasoning : Bool
deriving Repr, DecidableEq, Inhabited

/-- `role == "user" and not is_reasoning`, the test used by
`RedisStore.get_session_history` to recognise a real user turn. -/
def isRealUser (m : Message) : Bool :=
  m.role == "user" && !m.is_reasoning

/-! ## HistoryWindower (RedisStore.get_session_history, lines 76-124)

The Redis fetch and JSON decoding (lines 66-74) are external I/O; the
embedding covers the pure windowing of the decoded message list. -/

/-- Embedding of the backward loop
`for i in range(len(messages) - 1, -1, -1): ...` (lines 90-98).
The first argument of the recursion is the number of indices still to
visit; visiting index `i` corresponds to the argument `i + 1`.  `count`
is `user_count` (a Python int that starts at 0 and only grows; the
comparison against the int `target` is taken in `Int` as in the source).
Returns `start_idx` (0 when the loop ends without a break). -/
def backwardWalk (messages : List Message) (target : Int) : Nat → Nat → Nat
  | 0, _ => 0
  | i + 1, count =>
    if isRealUser (messages.getD i default) then
      if ((count : Int) + 1) == target then i
      else backwardWalk messages target i (count + 1)
    else backwardWalk messages target i count

/-- Embedding of the forward-compression loop (lines 103-106):
`while start_idx < len(messages) and not (real user at start_idx): start_idx += 1`.
The fuel argument counts the remaining in-range indices, so the fuel
running out is exactly the `start_idx < len(messages)` test failing. -/
def forwardAlignAux (messages : List Message) : Nat → Nat → Nat
  | 0, i => i
  | fuel + 1, i =>
    if !(isRealUser (messages.getD i default)) then
      forwardAlignAux messages fuel (i + 1)
    else i

def forwardAlign (messages : List Message) (i : Nat) : Nat :=
  forwardAlignAux messages (messages.length - i) i

/-- Embedding of `RedisStore.get_session_history` (windowing part,
lines 79-124), on the decoded message list. -/
def get_session_history (messages : List Message) (include_reasoning : Bool)
    (last_n : Int) : List Message :=
  if last_n == -1 then
    if include_reasoning then messages
    else messages.filter (fun m => !m.is_reasoning)
  else
    -- Current question is also saved
    let target := last_n + 1
    -- Case 2: find window by counting REAL user messages
    let start_idx := backwardWalk messages target messages.length 0
    -- Compress forward to first REAL user message
    let start_idx := forwardAlign messages start_idx
    if start_idx ≥ messages.length then []
    else
      let window := messages.drop start_idx
      if !include_reasoning then window.filter (fun m => !m.is_reasoning)
      else window

/-! ## Spec-side windower

`backWalkSpec` and `windowSpec` are written from the spec's words
(spec §4.5 and claim C2), to be compared with the source embedding
above: walk the log backward counting only real user messages until
`N + 1` of them are counted and mark the boundary (fall back to the
start of the log if there are fewer); scan forward from the boundary to
the first real user message; take the suffix from there; finally drop
reasoning messages unless `include_reasoning`. -/

/-- The backward-counting walk of the spec, phrased as a right fold (the
fold starts at the end of the log and moves left).  Returns the suffix
of the log starting at the boundary (`none` when fewer than `target`
real user messages exist) together with the number of real user
messages counted. -/
def backWalkSpec (target : Nat) : List Message → Option (List Message) × Nat
  | [] => (none, 0)
  | m :: rest =>
    match backWalkSpec target rest with
    | (some w, c) => (some w, c)
    | (none, c) =>
      if isRealUser m then
        if c + 1 == target then (some (m :: rest), c + 1) else (none, c + 1)
      else (none, c)

/-- The two-phase windowing procedure as the spec words it. -/
def windowSpec (log : List Message) (last_n : Nat) (include_reasoning : Bool) :
    List Message :=
  let target := last_n + 1
  let base :=
    match (backWalkSpec target log).1 with
    | some w => w
    | none => log
  let aligned := base.dropWhile (fun m => !(isRealUser m))
  if include_reasoning then aligned else aligned.filter (fun m => !m.is_reasoning)

/-! ### Equivalence of the source windower with the spec's procedure -/

lemma intBeq (c t : Nat) : (((c : Int) + 1) == ((t : Int))) = ((c + 1) == t) := by
  rcases eq_or_ne (c + 1) t with h | h
  · have h1 : ((c : Int) + 1) = (t : Int) := by omega
    simp [h1, h]
  · have h1 : ((c : Int) + 1) ≠ (t : Int) := by omega
    simp [h1, h]

lemma natBeqFalse (a b : Nat) (h : a ≠ b) : (a == b) = false := by
  simp [h]

lemma backWalkSpec_snoc_hit (l : List Message) (x : Message) (h : isRealUser x = true) :
    backWalkSpec 1 (l ++ [x]) = (some [x], 1) := by
  induction l with
  | nil => simp [backWalkSpec, h]
  | cons a l ih => simp [backWalkSpec, ih]

lemma backWalkSpec_snoc_real (l : List Message) (x : Message) (t : Nat)
    (h : isRealUser x = true) (ht : 2 ≤ t) :
    backWalkSpec t (l ++ [x]) =
      match backWalkSpec (t - 1) l with
      | (some w, c) => (some (w ++ [x]), c + 1)
      | (none, c) => (none, c + 1) := by
  induction l with
  | nil =>
    have hcomp : ((0 : Nat) + 1 == t) = false := natBeqFalse _ _ (by omega)
    simp [backWalkSpec, h, hcomp]
  | cons a l ih =>
    rw [List.cons_append, backWalkSpec, ih]
    rcases hbw : backWalkSpec (t - 1) l with ⟨ow, c⟩
    cases ow with
    | some w => simp [backWalkSpec, hbw]
    | none =>
      by_cases hra : isRealUser a
      · by_cases hc : c + 1 = t - 1
        · have h1 : (c + 1 + 1 == t) = true := by
            have : c + 1 + 1 = t := by omega
            simp [this]
          have h2 : (c + 1 == t - 1) = true := by simp [hc]
          simp [backWalkSpec, hbw, hra, h1, h2]
        · have h1 : (c + 1 + 1 == t) = false := natBeqFalse _ _ (by omega)
          have h2 : (c + 1 == t - 1) = false := natBeqFalse _ _ hc
          simp [backWalkSpec, hbw, hra, h1, h2]
      · simp [backWalkSpec, hbw, hra]

lemma backWalkSpec_snoc_notreal (l : List Message) (x : Message) (t : Nat)
    (h : isRealUser x = false) :
    backWalkSpec t (l ++ [x]) =
      match backWalkSpec t l with
      | (some w, c) => (some (w ++ [x]), c)
      | (none, c) => (none, c) := by
  induction l with
  | nil => simp [backWalkSpec, h]
  | cons a l ih =>
    rw [List.cons_append, backWalkSpec, ih]
    rcases hbw : backWalkSpec t l with ⟨ow, c⟩
    cases ow with
    | some w => simp [backWalkSpec, hbw]
    | none =>
      by_cases hra : isRealUser a
      · by_cases hc : c + 1 = t
        · simp [backWalkSpec, hbw, hra, hc]
        · have h2 : (c + 1 == t) = false := natBeqFalse _ _ hc
          simp [backWalkSpec, hbw, hra, h2]
      · simp [backWalkSpec, hbw, hra]

lemma drop_backwardWalk (log : List Message) (t : Nat) :
    ∀ i, i ≤ log.length → ∀ c, c < t →
    log.drop (backwardWalk log ((t : Int)) i c) =
      (match (backWalkSpec (t - c) (log.take i)).1 with
       | some w => w ++ log.drop i
       | none => log) := by
  intro i
  induction i with
  | zero =>
    intro _ c hc
    rfl
  | succ i ih =>
    intro hi c hc
    have hilt : i < log.length := Nat.lt_of_succ_le hi
    have htake : log.take (i + 1) = log.take i ++ [log.get ⟨i, hilt⟩] := by
      rw [List.take_succ]
      simp [List.getElem?_eq_getElem hilt]
    have hgetD : log.getD i default = log.get ⟨i, hilt⟩ := by
      simp [List.getD_eq_getElem?_getD, List.getElem?_eq_getElem hilt]
    have hdropi : log.drop i = log.get ⟨i, hilt⟩ :: log.drop (i + 1) := by
      rw [List.drop_eq_getElem_cons hilt]; rfl
    rw [backwardWalk, hgetD, htake]
    by_cases hreal : isRealUser (log.get ⟨i, hilt⟩)
    · rw [if_pos hreal, intBeq]
      by_cases hhit : c + 1 = t
      · rw [if_pos (by simp [hhit])]
        have ht1 : t - c = 1 := by omega
        rw [ht1, backWalkSpec_snoc_hit _ _ hreal, hdropi]
        rfl
      · rw [if_neg (by simp [hhit])]
        have hc1 : c + 1 < t := by omega
        have ht2 : 2 ≤ t - c := by omega
        rw [ih (Nat.le_of_lt hilt) (c + 1) hc1,
            backWalkSpec_snoc_real _ _ _ hreal ht2]
        have hsub : t - c - 1 = t - (c + 1) := by omega
        rw [hsub]
        rcases hb2 : backWalkSpec (t - (c + 1)) (log.take i) with ⟨ow, c'⟩
        cases ow with
        | some w =>
          rw [hdropi]
          simp only [List.append_assoc, List.singleton_append]
        | none => rfl
    · have hf : isRealUser (log.get ⟨i, hilt⟩) = false := by simpa using hreal
      rw [if_neg hreal, backWalkSpec_snoc_notreal _ _ _ hf,
          ih (Nat.le_of_lt hilt) c hc]
      rcases hb2 : backWalkSpec (t - c) (log.take i) with ⟨ow, c'⟩
      cases ow with
      | some w =>
        rw [hdropi]
        simp only [List.append_assoc, List.singleton_append]
      | none => rfl

lemma drop_forwardAlignAux (log : List Message) :
    ∀ fuel i, log.length ≤ i + fuel →
    log.drop (forwardAlignAux log fuel i) =
      (log.drop i).dropWhile (fun m => !(isRealUser m)) := by
  intro fuel
  induction fuel with
  | zero =>
    intro i hi
    have h1 : log.drop i = [] := List.drop_eq_nil_of_le (by omega)
    show log.drop i = _
    rw [h1]
    rfl
  | succ fuel ih =>
    intro i hi
    by_cases hlen : i < log.length
    · have hgetD : log.getD i default = log[i] := by
        simp [List.getD_eq_getElem?_getD, List.getElem?_eq_getElem hlen]
      have hdropi : log.drop i = log[i] :: log.drop (i + 1) := List.drop_eq_getElem_cons hlen
      rw [forwardAlignAux, hgetD]
      by_cases hreal : isRealUser log[i]
      · rw [if_neg (by simp [hreal]), hdropi, List.dropWhile_cons,
            if_neg (by simp [hreal])]
      · have hf : isRealUser log[i] = false := by simpa using hreal
        rw [if_pos (by simp [hf]), hdropi, List.dropWhile_cons,
            if_pos (by simp [hf]), ih (i + 1) (by omega)]
    · have hdd : log.getD i default = default := by
        simp [List.getD_eq_getElem?_getD, List.getElem?_eq_none (by omega : log.length ≤ i)]
      rw [forwardAlignAux, if_pos (by rw [hdd]; rfl), ih (i + 1) (by omega),
          List.drop_eq_nil_of_le (by omega : log.length ≤ i),
          List.drop_eq_nil_of_le (by omega : log.length ≤ i + 1)]

theorem get_session_history_eq_windowSpec (log : List Message) (incl : Bool) (n : Nat) :
    get_session_history log incl ((n : Int)) = windowSpec log n incl := by
  have hne : (((n : Int)) == (-1 : Int)) = false := by
    simp only [beq_eq_false_iff_ne, ne_eq]
    omega
  have hcast : ((n : Int) + 1) = (((n + 1 : Nat)) : Int) := by push_cast; ring
  simp only [get_session_history, windowSpec]
  rw [if_neg (by simp [hne]), hcast]
  set s1 := backwardWalk log ((((n + 1 : Nat)) : Int)) log.length 0 with hs1
  have hbw := drop_backwardWalk log (n + 1) log.length le_rfl 0 (Nat.succ_pos n)
  rw [List.take_length, Nat.sub_zero] at hbw
  simp only [List.drop_length, List.append_nil] at hbw
  have hfa : forwardAlignAux log (log.length - s1) s1 = forwardAlign log s1 := rfl
  have hfw := drop_forwardAlignAux log (log.length - s1) s1 (by omega)
  rw [hfa, hbw] at hfw
  set base := (match (backWalkSpec (n + 1) log).1 with
               | some w => w
               | none => log) with hbasedef
  by_cases hge : forwardAlign log s1 ≥ log.length
  · rw [if_pos hge]
    have hnil : base.dropWhile (fun m => !(isRealUser m)) = [] := by
      rw [← hfw, List.drop_eq_nil_of_le hge]
    rw [hnil]
    cases incl <;> simp
  · rw [if_neg hge, hfw]
    cases incl <;> simp

/-! ### Claim C2: the windower implements the two-phase procedure -/

/-- C2.  For every message log and every `last_n = N ≥ 0`,
`RedisStore.get_session_history` returns exactly the slice computed by
the spec's two-phase procedure: walk the log backward counting only
messages with `role == user` and `is_reasoning == false` until `N + 1`
of them are counted (falling back to index 0 when the log has fewer),
scan forward from that boundary to the first such message (the empty
list when none remains), take the suffix of the log from there, and
finally drop `is_reasoning` messages when `include_reasoning` is false.
`windowSpec` is that procedure stated in the spec's words; the theorem
equates the source embedding with it for every log, every `N ≥ 0`
(as an integer: every non-negative `last_n`), and both settings of
`include_reasoning`. -/
theorem window_matches_two_phase_procedure (log : List Message) (incl : Bool) (n : Nat) :
    get_session_history log incl ((n : Int)) = windowSpec log n incl :=
  get_session_history_eq_windowSpec log incl n

/-! ### Claim C3: the spec's worked example

The spec's §8 example disagrees with the code (and with the spec's own
`N + 1` rule in §4.5): on the example log the code returns
`[U2, A2, U3]` for `last_n = 1, include_reasoning = false` (the current
query counts as one more real turn, so two real user turns are kept),
not `[U3]`; and the whole log for `last_n = 2, include_reasoning = true`,
not the slice from `U2`. -/

def mU1 : Message := ⟨"user", "U1", false⟩
def mR1a : Message := ⟨"assistant", "R1a", true⟩
def mR1b : Message := ⟨"user", "R1b", true⟩
def mA1 : Message := ⟨"assistant", "A1", false⟩
def mU2 : Message := ⟨"user", "U2", false⟩
def mR2a : Message := ⟨"assistant", "R2a", true⟩
def mA2 : Message := ⟨"assistant", "A2", false⟩
def mU3 : Message := ⟨"user", "U3", false⟩

/-- The spec's example log `[U1, R1a, R1b, A1, U2, R2a, A2, U3]`. -/
def exampleLog : List Message := [mU1, mR1a, mR1b, mA1, mU2, mR2a, mA2, mU3]

/-- C3 counterexample.  On the spec's example log, the code does NOT
return `[U3]` for `window(log, last_n=1, include_reasoning=false)`, and
does NOT return the `U2`-through-`U3` slice for
`window(log, last_n=2, include_reasoning=true)`; both halves of the
claim fail on the code. -/
theorem window_example_counterexample :
    get_session_history exampleLog false 1 ≠ [mU3] ∧
    get_session_history exampleLog true 2 ≠ [mU2, mR2a, mA2, mU3] := by
  constructor <;> decide

/-- C3 amended.  On the example log the code returns `[U2, A2, U3]` for
`last_n = 1, include_reasoning = false` (the boundary is the second real
user message from the end, because the just-saved current query counts
as one more real turn) and the entire log for
`last_n = 2, include_reasoning = true` (the boundary falls back to
`U1`). -/
theorem window_example_amended :
    get_session_history exampleLog false 1 = [mU2, mA2, mU3] ∧
    get_session_history exampleLog true 2 = exampleLog := by
  constructor <;> decide

/-! ## StepParser (Agent._parse_step, backend/app/agent/agent.py lines 187-206)

The parser runs the regex `\x60\x60\x60python(.*?)\x60\x60\x60` (DOTALL,
lazy) over the raw response and splits it into thought and code.  The
embedding works on `List Char`; `findSub` returns the first index at
which a pattern occurs, which together with the first closing-marker
index after the opening marker is exactly the leftmost-then-lazy match
of the regex ("\x60\x60\x60python" cannot overlap itself, and any later
occurrence of it would itself contain the closing marker).  `pyStrip`
is Python's `str.strip()` with newline-class whitespace. -/

def pyStrip (s : List Char) : List Char :=
  ((s.dropWhile Char.isWhitespace).reverse.dropWhile Char.isWhitespace).reverse

def findSub (pat : List Char) : List Char → Option Nat
  | [] => if pat.isEmpty then some 0 else none
  | c :: rest =>
    if pat.isPrefixOf (c :: rest) then some 0
    else (findSub pat rest).map (· + 1)

def otag : List Char := "```python".toList
def ctag : List Char := "```".toList

structure AgentStep where
  thought : List Char
  code : Option (List Char)
deriving Repr, DecidableEq

def parse_step (response_text : List Char) : AgentStep :=
  match findSub otag response_text with
  | some i =>
    match findSub ctag (response_text.drop (i + otag.length)) with
    | some j =>
      { thought := pyStrip (response_text.take i)
        code := some (pyStrip ((response_text.drop (i + otag.length)).take j)) }
    | none => { thought := pyStrip response_text, code := none }
  | none => { thought := pyStrip response_text, code := none }

def hasFencedBlock (txt : List Char) : Bool :=
  (List.range (txt.length + 1)).any fun i =>
    otag.isPrefixOf (txt.drop i) &&
      (List.range (txt.length + 1)).any fun j =>
        decide (i + otag.length ≤ j) && ctag.isPrefixOf (txt.drop j)

lemma findSub_sound (pat : List Char) :
    ∀ txt k, findSub pat txt = some k → pat.isPrefixOf (txt.drop k) = true := by
  intro txt
  induction txt with
  | nil =>
    intro k h
    rw [findSub] at h
    by_cases hp : pat.isEmpty
    · rw [if_pos hp] at h
      cases h
      cases pat with
      | nil => rfl
      | cons a l => simp [List.isEmpty] at hp
    · rw [if_neg hp] at h
      cases h
  | cons c rest ih =>
    intro k h
    rw [findSub] at h
    by_cases hp : pat.isPrefixOf (c :: rest)
    · rw [if_pos hp] at h
      cases h
      exact hp
    · rw [if_neg hp] at h
      rcases Option.map_eq_some'.mp h with ⟨k', hk', rfl⟩
      exact ih k' hk'

lemma findSub_none (pat : List Char) :
    ∀ txt, findSub pat txt = none → ∀ k, pat.isPrefixOf (txt.drop k) = false := by
  intro txt
  induction txt with
  | nil =>
    intro h k
    rw [findSub] at h
    by_cases hp : pat.isEmpty
    · rw [if_pos hp] at h; cases h
    · simp only [List.drop_nil]
      cases pat with
      | nil => simp [List.isEmpty] at hp
      | cons a l => rfl
  | cons c rest ih =>
    intro h k
    rw [findSub] at h
    by_cases hp : pat.isPrefixOf (c :: rest)
    · rw [if_pos hp] at h; cases h
    · rw [if_neg hp] at h
      have hrest : findSub pat rest = none := by
        cases hr : findSub pat rest with
        | none => rfl
        | some k' => rw [hr] at h; cases h
      cases k with
      | zero =>
        simp only [List.drop_zero]
        exact Bool.eq_false_iff.mpr hp
      | succ k' => exact ih hrest k'

lemma findSub_some_lt (pat : List Char) (hne : pat ≠ []) :
    ∀ txt k, findSub pat txt = some k → k < txt.length := by
  intro txt k h
  have hpre := findSub_sound pat txt k h
  by_contra hk
  have hdrop : txt.drop k = [] := List.drop_eq_nil_of_le (by omega)
  rw [hdrop] at hpre
  cases pat with
  | nil => exact hne rfl
  | cons a l => simp [List.isPrefixOf] at hpre

/-- C7.  On any text with no well-formed opening-and-closing fence pair
(`hasFencedBlock txt = false`, i.e. no occurrence of the opening marker
followed at or after its end by an occurrence of the closing marker) —
including a dangling unterminated opening fence — `Agent._parse_step`
does not fail: it returns the entire trimmed text as the thought and no
code.  The embedding is a total pure function of the text, so the
result is identical on every re-parse of the same text. -/
theorem parser_no_fence_degrades (txt : List Char) (h : hasFencedBlock txt = false) :
    parse_step txt = { thought := pyStrip txt, code := none } := by
  cases ho : findSub otag txt with
  | none => simp only [parse_step, ho]
  | some i =>
    cases hc : findSub ctag (txt.drop (i + otag.length)) with
    | none => simp only [parse_step, ho, hc]
    | some j =>
      exfalso
      have hio := findSub_sound otag txt i ho
      have hjc := findSub_sound ctag (txt.drop (i + otag.length)) j hc
      rw [List.drop_drop] at hjc
      have hilt : i < txt.length := findSub_some_lt otag (by decide) txt i ho
      have hjlt : i + otag.length + j < txt.length := by
        have h1 := findSub_some_lt ctag (by decide) (txt.drop (i + otag.length)) j hc
        rw [List.length_drop] at h1
        omega
      have : hasFencedBlock txt = true := by
        rw [hasFencedBlock, List.any_eq_true]
        refine ⟨i, List.mem_range.mpr (by omega), ?_⟩
        rw [Bool.and_eq_true, List.any_eq_true]
        refine ⟨hio, i + otag.length + j, List.mem_range.mpr (by omega), ?_⟩
        rw [Bool.and_eq_true]
        refine ⟨by simp, hjc⟩
      rw [h] at this
      cases this

/-- C7 witness: a concrete text with a dangling unterminated fence
satisfies the hypothesis and degrades to "no code". -/
theorem parser_no_fence_degrades_witness :
    hasFencedBlock ("I will write code: ```python print(5)".toList) = false ∧
    parse_step ("I will write code: ```python print(5)".toList) =
      { thought := "I will write code: ```python print(5)".toList, code := none } := by
  constructor
  · decide
  · rw [parser_no_fence_degrades _ (by decide)]
    decide

/-! ## DefinitionTracker (extract_definitions, backend/app/agent/executor.py lines 22-56) -/

/-- Model of a node of the Python `ast` statement list: a top-level
function definition (with its nested statement body), an import
statement, or any other statement (with whatever statements it nests).
`lineno`/`endLineno` are the 1-based line numbers the parser attaches. -/
inductive PyStmt where
  | funcDefn (name : String) (lineno endLineno : Nat) (body : List PyStmt)
  | importStmt (lineno endLineno : Nat)
  | other (body : List PyStmt)

/-- Oracle for the external Python standard library: `textwrap.dedent`
and `ast.parse` (returning `none` on `SyntaxError`). -/
structure PyEnv where
  dedent : List Char → List Char
  pyparse : List Char → Option (List PyStmt)

/-- Python `str.splitlines(keepends=True)`, with `\n` as the line
terminator. -/
def splitLinesKeepAux : List Char → List Char → List (List Char)
  | [], acc => if acc.isEmpty then [] else [acc.reverse]
  | c :: rest, acc =>
    if c = '\n' then (acc.reverse ++ ['\n']) :: splitLinesKeepAux rest []
    else splitLinesKeepAux rest (c :: acc)

def splitLinesKeep (s : List Char) : List (List Char) :=
  splitLinesKeepAux s []

/-- `"".join(lines[start:endL])`: the verbatim source span between two
line indices (`start` 0-based inclusive, `endL` exclusive). -/
def sourceSpan (code : List Char) (start endL : Nat) : List Char :=
  (((splitLinesKeep code).drop start).take (endL - start)).flatten

/-- Python `dict` update of a single key: overwrite in place when the
key is present, append otherwise. -/
def updateAssoc : List (String × List Char) → String → List Char → List (String × List Char)
  | [], k, v => [(k, v)]
  | p :: rest, k, v => if p.1 == k then (k, v) :: rest else p :: updateAssoc rest k v

/-- Embedding of `extract_definitions` (executor.py lines 22-56): dedent,
parse (empty results on `SyntaxError`), then walk the top-level
statement list capturing each function definition by verbatim source
span (keyed by name, later definitions overwriting) and each import
statement's stripped span, in order. -/
def extract_definitions (env : PyEnv) (code_str : List Char) :
    List (String × List Char) × List (List Char) :=
  let code_str := env.dedent code_str
  match env.pyparse code_str with
  | none => ([], [])
  | some body =>
    body.foldl
      (fun acc node =>
        match node with
        | .funcDefn name lineno endLineno _ =>
          (updateAssoc acc.1 name (sourceSpan code_str (lineno - 1) endLineno), acc.2)
        | .importStmt lineno endLineno =>
          (acc.1, acc.2 ++ [pyStrip (sourceSpan code_str (lineno - 1) endLineno)])
        | .other _ => acc)
      ([], [])

/-- The stripped span of a top-level import statement, `none` for other
statements. -/
def importSpanOf (d : List Char) : PyStmt → Option (List Char)
  | .importStmt lineno endLineno => some (pyStrip (sourceSpan d (lineno - 1) endLineno))
  | _ => none

/-- The source span of the last top-level `def` of a given name, `none`
when no top-level `def` has that name. -/
def lastFuncSpan (d : List Char) : List PyStmt → String → Option (List Char)
  | [], _ => none
  | .funcDefn m lineno endLineno _ :: rest, n =>
    match lastFuncSpan d rest n with
    | some s => some s
    | none => if m == n then some (sourceSpan d (lineno - 1) endLineno) else none
  | .importStmt _ _ :: rest, n => lastFuncSpan d rest n
  | .other _ :: rest, n => lastFuncSpan d rest n

/-- Whether a statement is a top-level `def` with the given name. -/
def isFuncNamed (n : String) : PyStmt → Bool
  | .funcDefn m _ _ _ => m == n
  | _ => false

lemma lookup_updateAssoc_self (l : List (String × List Char)) (k : String) (v : List Char) :
    List.lookup k (updateAssoc l k v) = some v := by
  induction l with
  | nil => simp [updateAssoc, List.lookup]
  | cons p rest ih =>
    rw [updateAssoc]
    by_cases h : p.1 == k
    · rw [if_pos h]
      simp [List.lookup]
    · rw [if_neg h]
      have h2 : (k == p.1) = false := by
        simp only [beq_eq_false_iff_ne, ne_eq]
        intro he
        exact h (by simp [he])
      simp [List.lookup, h2, ih]

lemma lookup_updateAssoc_other (l : List (String × List Char)) (k k' : String)
    (v : List Char) (h : k ≠ k') :
    List.lookup k (updateAssoc l k' v) = List.lookup k l := by
  have hkk : (k == k') = false := by simp [h]
  induction l with
  | nil => simp [updateAssoc, List.lookup, hkk]
  | cons p rest ih =>
    rw [updateAssoc]
    by_cases hp : p.1 == k'
    · rw [if_pos hp]
      have hp' : p.1 = k' := by simpa using hp
      simp [List.lookup, hp', hkk]
    · rw [if_neg hp]
      simp [List.lookup, ih]

/-- Characterisation of the fold in `extract_definitions`. -/
lemma extract_foldl_spec (d : List Char) (body : List PyStmt) :
    ∀ acc : List (String × List Char) × List (List Char),
    (body.foldl
      (fun acc node =>
        match node with
        | PyStmt.funcDefn name lineno endLineno _ =>
          (updateAssoc acc.1 name (sourceSpan d (lineno - 1) endLineno), acc.2)
        | PyStmt.importStmt lineno endLineno =>
          (acc.1, acc.2 ++ [pyStrip (sourceSpan d (lineno - 1) endLineno)])
        | PyStmt.other _ => acc)
      acc).2 = acc.2 ++ body.filterMap (importSpanOf d) ∧
    ∀ n : String,
      List.lookup n
        (body.foldl
          (fun acc node =>
            match node with
            | PyStmt.funcDefn name lineno endLineno _ =>
              (updateAssoc acc.1 name (sourceSpan d (lineno - 1) endLineno), acc.2)
            | PyStmt.importStmt lineno endLineno =>
              (acc.1, acc.2 ++ [pyStrip (sourceSpan d (lineno - 1) endLineno)])
            | PyStmt.other _ => acc)
          acc).1 =
        (match lastFuncSpan d body n with
         | some s => some s
         | none => List.lookup n acc.1) := by
  induction body with
  | nil =>
    intro acc
    refine ⟨by simp, ?_⟩
    intro n
    simp [lastFuncSpan]
  | cons stmt rest ih =>
    intro acc
    cases stmt with
    | funcDefn m lineno endLineno b =>
      rcases ih (updateAssoc acc.1 m (sourceSpan d (lineno - 1) endLineno), acc.2) with ⟨h1, h2⟩
      refine ⟨?_, ?_⟩
      · rw [List.foldl_cons, h1]
        simp [List.filterMap_cons, importSpanOf]
      · intro n
        rw [List.foldl_cons, h2 n, lastFuncSpan]
        cases hl : lastFuncSpan d rest n with
        | some s => rfl
        | none =>
          by_cases hm : m == n
          · have hmn : m = n := by simpa using hm
            rw [if_pos hm]
            subst hmn
            exact lookup_updateAssoc_self _ _ _
          · have hmn : n ≠ m := by
              intro he
              exact absurd (by simp [he]) hm
            rw [if_neg hm]
            exact lookup_updateAssoc_other _ _ _ _ hmn
    | importStmt lineno endLineno =>
      rcases ih (acc.1, acc.2 ++ [pyStrip (sourceSpan d (lineno - 1) endLineno)]) with ⟨h1, h2⟩
      refine ⟨?_, ?_⟩
      · rw [List.foldl_cons, h1]
        simp [List.filterMap_cons, importSpanOf]
      · intro n
        rw [List.foldl_cons, h2 n, lastFuncSpan]
    | other b =>
      rcases ih acc with ⟨h1, h2⟩
      refine ⟨?_, ?_⟩
      · rw [List.foldl_cons, h1]
        simp [List.filterMap_cons, importSpanOf]
      · intro n
        rw [List.foldl_cons, h2 n, lastFuncSpan]

lemma lastFuncSpan_eq_none (d : List Char) (body : List PyStmt) (n : String)
    (h : ∀ stmt ∈ body, isFuncNamed n stmt = false) :
    lastFuncSpan d body n = none := by
  induction body with
  | nil => rfl
  | cons stmt rest ih =>
    have hrest := ih (fun s hs => h s (List.mem_cons_of_mem _ hs))
    cases stmt with
    | funcDefn m lineno endLineno b =>
      have hm := h _ (List.mem_cons_self _ _)
      rw [isFuncNamed] at hm
      rw [lastFuncSpan, hrest]
      simp [hm]
    | importStmt lineno endLineno =>
      rw [lastFuncSpan]
      exact hrest
    | other b =>
      rw [lastFuncSpan]
      exact hrest

/-- C8.  `extract_definitions` is a pure syntactic pass: on
syntactically invalid source (the parser raising `SyntaxError`,
modelled as the oracle returning `none`) it returns empty results
rather than raising; on a parsed statement list it returns exactly the
top-level import statements (their stripped verbatim source spans, in
order) and exactly the top-level function definitions (mapped from name
to the verbatim source span of the last definition of that name); a
name defined only by functions nested inside other statements is never
captured. -/
theorem tracker_pure_syntactic_pass :
    (∀ env code, env.pyparse (env.dedent code) = none →
      extract_definitions env code = ([], [])) ∧
    (∀ env code body, env.pyparse (env.dedent code) = some body →
      (extract_definitions env code).2 =
        body.filterMap (importSpanOf (env.dedent code)) ∧
      (∀ n, List.lookup n (extract_definitions env code).1 =
        lastFuncSpan (env.dedent code) body n) ∧
      (∀ n, (∀ stmt ∈ body, isFuncNamed n stmt = false) →
        List.lookup n (extract_definitions env code).1 = none)) := by
  constructor
  · intro env code h
    rw [extract_definitions, h]
  · intro env code body h
    have hfold := extract_foldl_spec (env.dedent code) body ([], [])
    have hunf : extract_definitions env code =
        body.foldl
          (fun acc node =>
            match node with
            | PyStmt.funcDefn name lineno endLineno _ =>
              (updateAssoc acc.1 name (sourceSpan (env.dedent code) (lineno - 1) endLineno), acc.2)
            | PyStmt.importStmt lineno endLineno =>
              (acc.1, acc.2 ++ [pyStrip (sourceSpan (env.dedent code) (lineno - 1) endLineno)])
            | PyStmt.other _ => acc)
          ([], []) := by
      rw [extract_definitions, h]
    refine ⟨?_, ?_, ?_⟩
    · rw [hunf, hfold.1]
      rfl
    · intro n
      rw [hunf, hfold.2 n]
      cases lastFuncSpan (env.dedent code) body n <;> rfl
    · intro n hn
      rw [hunf, hfold.2 n, lastFuncSpan_eq_none _ _ _ hn]
      rfl

/-- A concrete parser oracle for the C8 witness: `dedent` is the
identity and `pyparse` recognises one fixed source text containing a
nested function definition and an import. -/
def envC8 : PyEnv :=
  { dedent := id
    pyparse := fun s =>
      if s = "def g():\n    def h():\n        return 1\n    return 2\nimport os\n".toList then
        some [PyStmt.funcDefn "g" 1 4 [PyStmt.funcDefn "h" 2 3 []],
              PyStmt.importStmt 5 5]
      else none }

def codeC8 : List Char :=
  "def g():\n    def h():\n        return 1\n    return 2\nimport os\n".toList

def bodyC8 : List PyStmt :=
  [PyStmt.funcDefn "g" 1 4 [PyStmt.funcDefn "h" 2 3 []], PyStmt.importStmt 5 5]

/-- C8 witness: a syntax error yields empty results; on a source with
a nested `def h` inside a top-level `def g` plus an import, exactly
`g` (verbatim) and `import os` are captured and `h` is not. -/
theorem tracker_pure_syntactic_pass_witness :
    extract_definitions envC8 "def g(:".toList = ([], []) ∧
    (extract_definitions envC8 codeC8).2 = ["import os".toList] ∧
    List.lookup "g" (extract_definitions envC8 codeC8).1 =
      some "def g():\n    def h():\n        return 1\n    return 2\n".toList ∧
    List.lookup "h" (extract_definitions envC8 codeC8).1 = none := by
  have h2 := tracker_pure_syntactic_pass.2 envC8 codeC8 bodyC8 rfl
  refine ⟨?_, ?_, ?_, ?_⟩
  · exact tracker_pure_syntactic_pass.1 envC8 "def g(:".toList rfl
  · exact h2.1.trans (by decide)
  · exact (h2.2.1 "g").trans (by decide)
  · exact h2.2.2 "h" (by decide)

/-! ## SandboxAdapter / CodeExecutor (backend/app/agent/executor.py lines 59-151) -/

/-- Model of the value the external smolagents sandbox call
`self.executor(code)` produces on success: its `logs` attribute
(truthiness = non-emptiness), its `output` attribute (`none` = Python
`None`; otherwise modelled as the `str()` of the value), the truthiness
of the object itself, and its `str()` form. -/
structure CodeOutput where
  logs : List Char
  output : Option (List Char)
  truthy : Bool
  asString : List Char
deriving Repr, DecidableEq

/-- The three possible behaviours of one sandbox call: return normally,
raise `FinalAnswerException`, or raise some other exception (whose
`__context__` may hold a wrapped `FinalAnswerException` with the given
answer). -/
inductive SandboxOutcome where
  | ok (out : CodeOutput)
  | raiseFinal (answer : List Char)
  | raiseOther (msg : List Char) (ctxFinal : Option (List Char))
deriving Repr, DecidableEq

/-- What `CodeExecutor.execute` hands back to the loop: either the
`FinalAnswerException` object itself (carrying its answer), or a plain
string (normal output or an `Execution Error:` failure). -/
inductive ExecReturn where
  | finalAns (answer : List Char)
  | text (s : List Char)
deriving Repr, DecidableEq

/-- The output-formatting of the `try` branch of `execute`
(executor.py lines 114-136). -/
def formatOkOutput (out : CodeOutput) : List Char :=
  let final_output :=
    (if !out.logs.isEmpty then out.logs else []) ++
      (match out.output with
       | some o => o
       | none => [])
  if final_output.isEmpty && !out.truthy then
    "Execution successful (no output).".toList
  else if !final_output.isEmpty then pyStrip final_output
  else out.asString

/-- The value `execute` returns for a given sandbox behaviour
(executor.py lines 114-150): normal result formatting; a raised
`FinalAnswerException` returned as the object; any other exception
returned as the object in its `__context__` when that wraps a
`FinalAnswerException`, else as an `Execution Error:` failure string. -/
def executeReturn : SandboxOutcome → ExecReturn
  | .ok out => .text (formatOkOutput out)
  | .raiseFinal a => .finalAns a
  | .raiseOther msg ctxFinal =>
    match ctxFinal with
    | some a => .finalAns a
    | none => .text ("Execution Error: ".toList ++ msg)

/-- The executor's cross-execution tracking state:
`self.defined_functions` (a Python dict, name to source) and
`self.defined_imports` (a Python set, kept here as a duplicate-free
list in insertion order). -/
structure ExecutorState where
  defined_functions : List (String × List Char)
  defined_imports : List (List Char)
deriving Repr, DecidableEq

/-- Python `set.add`. -/
def addImport (s : List (List Char)) (imp : List Char) : List (List Char) :=
  if imp ∈ s then s else s ++ [imp]

/-- Embedding of `CodeExecutor.execute` (executor.py lines 99-150): the
new top-level definitions and imports of the submitted code are merged
into the tracking state first, then the sandbox runs the code (its
behaviour is the `outcome` oracle) and the result is normalised by
`executeReturn`. -/
def CodeExecutor_execute (env : PyEnv) (st : ExecutorState) (code : List Char)
    (outcome : SandboxOutcome) : ExecutorState × ExecReturn :=
  let extracted := extract_definitions env code
  let st' : ExecutorState :=
    { defined_functions :=
        extracted.1.foldl (fun acc p => updateAssoc acc p.1 p.2) st.defined_functions
      defined_imports := extracted.2.foldl addImport st.defined_imports }
  (st', executeReturn outcome)

lemma lookup_isSome_updateAssoc (l : List (String × List Char)) (k k' : String)
    (v : List Char) (h : (List.lookup k l).isSome) :
    (List.lookup k (updateAssoc l k' v)).isSome := by
  by_cases hk : k = k'
  · subst hk
    rw [lookup_updateAssoc_self]
    rfl
  · rw [lookup_updateAssoc_other _ _ _ _ hk]
    exact h

lemma lookup_isSome_foldl_updateAssoc (l : List (String × List Char)) :
    ∀ (st : List (String × List Char)) (k : String),
    (List.lookup k st).isSome →
    (List.lookup k (l.foldl (fun acc p => updateAssoc acc p.1 p.2) st)).isSome := by
  induction l with
  | nil => intro st k h; exact h
  | cons p rest ih =>
    intro st k h
    rw [List.foldl_cons]
    exact ih _ k (lookup_isSome_updateAssoc _ _ _ _ h)

lemma lookup_foldl_updateAssoc_untouched (l : List (String × List Char)) :
    ∀ (st : List (String × List Char)) (k : String),
    (∀ p ∈ l, p.1 ≠ k) →
    List.lookup k (l.foldl (fun acc p => updateAssoc acc p.1 p.2) st) = List.lookup k st := by
  induction l with
  | nil => intro st k _; rfl
  | cons p rest ih =>
    intro st k h
    rw [List.foldl_cons, ih _ k (fun q hq => h q (List.mem_cons_of_mem _ hq)),
        lookup_updateAssoc_other _ _ _ _ (fun he => h p (List.mem_cons_self _ _) he.symm)]

lemma mem_keys_updateAssoc (l : List (String × List Char)) (k : String) (v : List Char)
    (x : String) (h : x ∈ (updateAssoc l k v).map Prod.fst) :
    x ∈ l.map Prod.fst ∨ x = k := by
  induction l with
  | nil =>
    right
    simpa [updateAssoc] using h
  | cons p rest ih =>
    rw [updateAssoc] at h
    by_cases hp : p.1 == k
    · rw [if_pos hp] at h
      rcases List.mem_cons.mp h with h1 | h1
      · right; exact h1
      · left; exact List.mem_cons_of_mem _ h1
    · rw [if_neg hp] at h
      rcases List.mem_cons.mp h with h1 | h1
      · left; exact List.mem_cons.mpr (Or.inl h1)
      · rcases ih h1 with h2 | h2
        · left; exact List.mem_cons_of_mem _ h2
        · right; exact h2

/-- Keys of an association list stay duplicate-free under `updateAssoc`. -/
lemma nodup_keys_updateAssoc (l : List (String × List Char)) (k : String) (v : List Char)
    (h : (l.map Prod.fst).Nodup) : ((updateAssoc l k v).map Prod.fst).Nodup := by
  induction l with
  | nil => simp [updateAssoc]
  | cons p rest ih =>
    rw [updateAssoc]
    by_cases hp : p.1 == k
    · rw [if_pos hp]
      have hp' : p.1 = k := by simpa using hp
      simpa [hp'] using h
    · rw [if_neg hp]
      rw [List.map_cons, List.nodup_cons] at h ⊢
      refine ⟨?_, ih h.2⟩
      intro hmem
      rcases mem_keys_updateAssoc _ _ _ _ hmem with h2 | h2
      · exact h.1 h2
      · exact absurd (by simp [h2]) hp

/-- Looking up a key of a duplicate-free association list after folding
the whole list into a state with `updateAssoc` yields the list's own
binding. -/
lemma lookup_foldl_updateAssoc_last (l : List (String × List Char)) :
    ∀ (st : List (String × List Char)) (k : String) (v : List Char),
    (l.map Prod.fst).Nodup → List.lookup k l = some v →
    List.lookup k (l.foldl (fun acc p => updateAssoc acc p.1 p.2) st) = some v := by
  induction l with
  | nil =>
    intro st k v _ h
    simp [List.lookup] at h
  | cons p rest ih =>
    intro st k v hnd h
    rw [List.map_cons, List.nodup_cons] at hnd
    rw [List.foldl_cons]
    rw [List.lookup] at h
    by_cases hk : k == p.1
    · have hk' : k = p.1 := by simpa using hk
      rw [hk] at h
      have hv : p.2 = v := by simpa using h
      have huntouched : ∀ q ∈ rest, q.1 ≠ k := by
        intro q hq he
        have : p.1 ∈ List.map Prod.fst rest := by
          rw [← hk', ← he]
          exact List.mem_map_of_mem Prod.fst hq
        exact hnd.1 this
      rw [lookup_foldl_updateAssoc_untouched rest _ k huntouched, hk',
          lookup_updateAssoc_self, hv]
    · have hkf : (k == p.1) = false := by simpa using hk
      rw [hkf] at h
      exact ih _ k v hnd.2 h

/-- The functions map produced by `extract_definitions` has
duplicate-free keys. -/
lemma extract_nodup_keys_aux (d : List Char) (body : List PyStmt) :
    ∀ acc : List (String × List Char) × List (List Char),
    (acc.1.map Prod.fst).Nodup →
    (((body.foldl
      (fun acc node =>
        match node with
        | PyStmt.funcDefn name lineno endLineno _ =>
          (updateAssoc acc.1 name (sourceSpan d (lineno - 1) endLineno), acc.2)
        | PyStmt.importStmt lineno endLineno =>
          (acc.1, acc.2 ++ [pyStrip (sourceSpan d (lineno - 1) endLineno)])
        | PyStmt.other _ => acc)
      acc).1).map Prod.fst).Nodup := by
  induction body with
  | nil => intro acc h; exact h
  | cons stmt rest ih =>
    intro acc h
    rw [List.foldl_cons]
    cases stmt with
    | funcDefn m lineno endLineno b => exact ih _ (nodup_keys_updateAssoc _ _ _ h)
    | importStmt lineno endLineno => exact ih _ h
    | other b => exact ih _ h

lemma extract_nodup_keys (env : PyEnv) (code : List Char) :
    (((extract_definitions env code).1).map Prod.fst).Nodup := by
  rw [extract_definitions]
  cases h : env.pyparse (env.dedent code) with
  | none => simp
  | some body => exact extract_nodup_keys_aux _ body ([], []) (by simp)

lemma mem_addImport_self (s : List (List Char)) (imp : List Char) :
    imp ∈ addImport s imp := by
  rw [addImport]
  by_cases h : imp ∈ s
  · rw [if_pos h]; exact h
  · rw [if_neg h]
    exact List.mem_append_right _ (List.mem_singleton.mpr rfl)

lemma mem_addImport_mono (s : List (List Char)) (x imp : List Char) (h : x ∈ s) :
    x ∈ addImport s imp := by
  rw [addImport]
  by_cases hm : imp ∈ s
  · rw [if_pos hm]; exact h
  · rw [if_neg hm]; exact List.mem_append_left _ h

lemma mem_foldl_addImport_mono (l : List (List Char)) :
    ∀ (s : List (List Char)) (x : List Char), x ∈ s → x ∈ l.foldl addImport s := by
  induction l with
  | nil => intro s x h; exact h
  | cons imp rest ih =>
    intro s x h
    rw [List.foldl_cons]
    exact ih _ x (mem_addImport_mono _ _ _ h)

lemma mem_foldl_addImport_of_mem (l : List (List Char)) :
    ∀ (s : List (List Char)) (imp : List Char), imp ∈ l → imp ∈ l.foldl addImport s := by
  induction l with
  | nil => intro s imp h; cases h
  | cons a rest ih =>
    intro s imp h
    rw [List.foldl_cons]
    rcases List.mem_cons.mp h with h1 | h1
    · subst h1
      exact mem_foldl_addImport_mono rest _ imp (mem_addImport_self _ _)
    · exact ih _ imp h1

/-- C10.  `CodeExecutor.execute` merges the submitted code's extracted
top-level definitions and imports into the session's tracking state
before executing, so after every call — the sandbox outcome is
universally quantified, hence in particular for calls whose execution
raises an error — `defined_functions` contains every extracted
top-level function with its source and `defined_imports` contains every
extracted import; and no call removes an existing key from
`defined_functions` or an existing element from `defined_imports`. -/
theorem executor_merges_definitions_monotonically
    (env : PyEnv) (st : ExecutorState) (code : List Char) (outcome : SandboxOutcome) :
    (∀ n src, List.lookup n (extract_definitions env code).1 = some src →
      List.lookup n ((CodeExecutor_execute env st code outcome).1).defined_functions = some src) ∧
    (∀ imp, imp ∈ (extract_definitions env code).2 →
      imp ∈ ((CodeExecutor_execute env st code outcome).1).defined_imports) ∧
    (∀ n, (List.lookup n st.defined_functions).isSome →
      (List.lookup n ((CodeExecutor_execute env st code outcome).1).defined_functions).isSome) ∧
    (∀ imp, imp ∈ st.defined_imports →
      imp ∈ ((CodeExecutor_execute env st code outcome).1).defined_imports) := by
  refine ⟨?_, ?_, ?_, ?_⟩
  · intro n src h
    exact lookup_foldl_updateAssoc_last _ _ n src (extract_nodup_keys env code) h
  · intro imp h
    exact mem_foldl_addImport_of_mem _ _ imp h
  · intro n h
    exact lookup_isSome_foldl_updateAssoc _ _ n h
  · intro imp h
    exact mem_foldl_addImport_mono _ _ imp h

def envC10 : PyEnv :=
  { dedent := id
    pyparse := fun s =>
      if s = "import math\ndef q(x): return x\n".toList then
        some [PyStmt.importStmt 1 1, PyStmt.funcDefn "q" 2 2 []]
      else none }

def codeC10 : List Char := "import math\ndef q(x): return x\n".toList

def stC10 : ExecutorState :=
  ⟨[("old", "def old(): pass".toList)], ["import os".toList]⟩

/-- C10 witness: a failing execution still merges the new definitions
and keeps the old ones. -/
theorem executor_merges_witness :
    List.lookup "q"
      ((CodeExecutor_execute envC10 stC10 codeC10 (.raiseOther "boom".toList none)).1).defined_functions
      = some "def q(x): return x\n".toList ∧
    "import math".toList ∈
      ((CodeExecutor_execute envC10 stC10 codeC10 (.raiseOther "boom".toList none)).1).defined_imports ∧
    (List.lookup "old"
      ((CodeExecutor_execute envC10 stC10 codeC10 (.raiseOther "boom".toList none)).1).defined_functions).isSome ∧
    "import os".toList ∈
      ((CodeExecutor_execute envC10 stC10 codeC10 (.raiseOther "boom".toList none)).1).defined_imports := by
  have h := executor_merges_definitions_monotonically envC10 stC10 codeC10
    (.raiseOther "boom".toList none)
  exact ⟨h.1 "q" _ (by decide), h.2.1 _ (by decide),
    h.2.2.1 "old" (by decide), h.2.2.2 _ (by decide)⟩

/-! ## AgentLoop (Agent.run, backend/app/agent/agent.py lines 208-294) -/

structure ChatMsg where
  role : String
  content : List Char
deriving Repr, DecidableEq

/-- The behaviour of one `await self._generate_step(...)` call: a raw
text response, or an exception (carrying its traceback text) — the only
statement of the loop's `try` block that can raise. -/
inductive GenResult where
  | ok (text : List Char)
  | genError (err : List Char)
deriving Repr, DecidableEq

/-- Modelled from the spec: the constants module
(backend/app/agent/constants.py), which defines
`CODE_BLOCK_OPENING_TAG`, is not among the provided sources; the spec
describes code actions as fenced code blocks, so the tag is taken to be
the opening fence marker that `Agent._parse_step` searches for. -/
def CODE_BLOCK_OPENING_TAG : List Char := otag

/-- Modelled from the spec: the closing code-block tag of the missing
constants module, taken to be the parser's closing fence marker. -/
def CODE_BLOCK_CLOSING_TAG : List Char := ctag

/-- The corrective message of the no-code branch (agent.py lines 264-269). -/
def noCodeMsg : List Char :=
  "Error: You did not provide any code block. You must output code in a ".toList ++
    CODE_BLOCK_OPENING_TAG ++ " ... ".toList ++ CODE_BLOCK_CLOSING_TAG ++
    " block. If you have the answer, use `final_answer('...')` inside a code block.".toList

def exhaustedMsg : String := "Agent reached maximum steps without a final answer."

def finishedMsg : String := "Agent finished without a final answer."

/-- Python truthiness of `step_data.code` (an `Optional[str]`): falsy
when the field is absent (`None`) and when it is the empty string — the
test of agent.py line 248, `if step_data.code:`. -/
def codeTruthy : Option (List Char) → Bool
  | none => false
  | some code => !code.isEmpty

/-- Embedding of the `while step_count < self.max_steps` loop of
`Agent.run` plus the two returns after it.  The fuel argument encodes
the loop's progress (every iteration increments `step_count` by exactly
one, in the error branch too, so `fuel = max_steps - step_count`
iterations remain); `init_count` is `initial_message_count`.  The code
branch mirrors the truthiness test `if step_data.code:` (line 248): a
parsed `code` that is `None` or the empty string (an empty fenced
block) takes the corrective branch without any sandbox call. -/
def runAux (env : PyEnv) (gen : Nat → GenResult) (sandbox : Nat → SandboxOutcome)
    (max_steps init_count : Nat) :
    Nat → List ChatMsg → Nat → ExecutorState → String × List ChatMsg
  | 0, messages, step_count, _ =>
    if step_count ≥ max_steps then (exhaustedMsg, messages.drop init_count)
    else (finishedMsg, messages.drop init_count)
  | fuel + 1, messages, step_count, est =>
    if step_count < max_steps then
      match gen step_count with
      | .genError e =>
        runAux env gen sandbox max_steps init_count fuel
          (messages ++ [⟨"user", "system error: ".toList ++ e⟩]) (step_count + 1) est
      | .ok llm_response =>
        let messages := messages ++ [⟨"assistant", llm_response⟩]
        let step_data := parse_step llm_response
        match step_data.code with
        | some code =>
          if !code.isEmpty then
            let r := CodeExecutor_execute env est code (sandbox step_count)
            match r.2 with
            | .finalAns a => (String.mk a, messages.drop init_count)
            | .text observation =>
              runAux env gen sandbox max_steps init_count fuel
                (messages ++ [⟨"user", "Observation: ".toList ++ observation⟩])
                (step_count + 1) r.1
          else
            runAux env gen sandbox max_steps init_count fuel
              (messages ++ [⟨"user", noCodeMsg⟩]) (step_count + 1) est
        | none =>
          runAux env gen sandbox max_steps init_count fuel
            (messages ++ [⟨"user", noCodeMsg⟩]) (step_count + 1) est
    else
      if step_count ≥ max_steps then (exhaustedMsg, messages.drop init_count)
      else (finishedMsg, messages.drop init_count)

/-- `Agent.run`: the loop started on the initialised message buffer with
`step_count = 0` and `initial_message_count = len(messages)`. -/
def Agent_run (env : PyEnv) (gen : Nat → GenResult) (sandbox : Nat → SandboxOutcome)
    (max_steps : Nat) (init_messages : List ChatMsg) (est : ExecutorState) :
    String × List ChatMsg :=
  runAux env gen sandbox max_steps init_messages.length max_steps init_messages 0 est

/-- The message/state effect of one non-terminating loop iteration,
with the same truthiness test on the parsed code as `runAux`. -/
def stepOnce (env : PyEnv) (gen : Nat → GenResult) (sandbox : Nat → SandboxOutcome)
    (n : Nat) : List ChatMsg × ExecutorState → List ChatMsg × ExecutorState
  | (msgs, est) =>
    match gen n with
    | .genError e => (msgs ++ [⟨"user", "system error: ".toList ++ e⟩], est)
    | .ok resp =>
      let msgs := msgs ++ [⟨"assistant", resp⟩]
      match (parse_step resp).code with
      | some code =>
        if !code.isEmpty then
          let r := CodeExecutor_execute env est code (sandbox n)
          match r.2 with
          | .finalAns _ => (msgs, r.1)
          | .text observation =>
            (msgs ++ [⟨"user", "Observation: ".toList ++ observation⟩], r.1)
        else (msgs ++ [⟨"user", noCodeMsg⟩], est)
      | none => (msgs ++ [⟨"user", noCodeMsg⟩], est)

/-- `k` successive loop iterations starting at step index `n`. -/
def stepIter (env : PyEnv) (gen : Nat → GenResult) (sandbox : Nat → SandboxOutcome) :
    Nat → Nat → List ChatMsg × ExecutorState → List ChatMsg × ExecutorState
  | _, 0, acc => acc
  | n, k + 1, acc => stepIter env gen sandbox (n + 1) k (stepOnce env gen sandbox n acc)

/-- Whether a sandbox behaviour carries the completion signal (a raised
`FinalAnswerException`, bare or wrapped as an exception context). -/
def outcomeSignalsCompletion : SandboxOutcome → Bool
  | .raiseFinal _ => true
  | .raiseOther _ (some _) => true
  | .ok _ => false
  | .raiseOther _ none => false

lemma executeReturn_text_of_no_completion (o : SandboxOutcome)
    (h : outcomeSignalsCompletion o = false) : ∃ t, executeReturn o = .text t := by
  cases o with
  | ok out => exact ⟨_, rfl⟩
  | raiseFinal a => cases h
  | raiseOther m ctx =>
    cases ctx with
    | some a => cases h
    | none => exact ⟨_, rfl⟩

lemma runAux_exhausts (env : PyEnv) (gen : Nat → GenResult) (sandbox : Nat → SandboxOutcome)
    (K initc : Nat) (hnc : ∀ n, outcomeSignalsCompletion (sandbox n) = false) :
    ∀ fuel c msgs est, fuel + c = K →
    runAux env gen sandbox K initc fuel msgs c est =
      (exhaustedMsg, (stepIter env gen sandbox c fuel (msgs, est)).1.drop initc) := by
  intro fuel
  induction fuel with
  | zero =>
    intro c msgs est h
    rw [runAux, if_pos (by omega : c ≥ K)]
    rfl
  | succ fuel ih =>
    intro c msgs est h
    rw [runAux, if_pos (by omega : c < K)]
    have hiter : stepIter env gen sandbox c (fuel + 1) (msgs, est) =
        stepIter env gen sandbox (c + 1) fuel (stepOnce env gen sandbox c (msgs, est)) := rfl
    rw [hiter]
    cases hg : gen c with
    | genError e =>
      dsimp only
      rw [ih (c + 1) _ est (by omega)]
      have hso : stepOnce env gen sandbox c (msgs, est) =
          (msgs ++ [⟨"user", "system error: ".toList ++ e⟩], est) := by
        rw [stepOnce, hg]
      rw [hso]
    | ok resp =>
      dsimp only
      cases hp : (parse_step resp).code with
      | some code =>
        dsimp only
        by_cases hemp : code.isEmpty
        · rw [if_neg (by simp [hemp])]
          rw [ih (c + 1) _ est (by omega)]
          have hso : stepOnce env gen sandbox c (msgs, est) =
              (msgs ++ [⟨"assistant", resp⟩] ++ [⟨"user", noCodeMsg⟩], est) := by
            rw [stepOnce, hg]
            dsimp only
            rw [hp]
            dsimp only
            rw [if_neg (by simp [hemp])]
          rw [hso]
        · have hf : code.isEmpty = false := by simpa using hemp
          rw [if_pos (by simp [hf])]
          obtain ⟨t, ht⟩ := executeReturn_text_of_no_completion (sandbox c) (hnc c)
          have hr2 : (CodeExecutor_execute env est code (sandbox c)).2 = .text t := ht
          rw [hr2]
          dsimp only
          rw [ih (c + 1) _ _ (by omega)]
          have hso : stepOnce env gen sandbox c (msgs, est) =
              (msgs ++ [⟨"assistant", resp⟩] ++
                [⟨"user", "Observation: ".toList ++ t⟩],
               (CodeExecutor_execute env est code (sandbox c)).1) := by
            rw [stepOnce, hg]
            dsimp only
            rw [hp]
            dsimp only
            rw [if_pos (by simp [hf])]
            rw [hr2]
          rw [hso]
      | none =>
        dsimp only
        rw [ih (c + 1) _ est (by omega)]
        have hso : stepOnce env gen sandbox c (msgs, est) =
            (msgs ++ [⟨"assistant", resp⟩] ++ [⟨"user", noCodeMsg⟩], est) := by
          rw [stepOnce, hg]
          dsimp only
          rw [hp]
        rw [hso]

/-- C1.  For every configured step budget `max_steps = K`, a run of
`Agent.run` in which no executed step yields a completion signal
(no sandbox call raises a bare or wrapped `FinalAnswerException`)
terminates and returns exactly the fixed exhaustion sentinel together
with the transcript of the messages generated during this invocation:
the result equals the state reached by applying the per-iteration
message transformation (`stepIter`) exactly `K` times, with the seeded
messages dropped — each iteration of `runAux`, including the
generation-error branch, increments the step counter by exactly one, so
the loop exits the first time the counter reaches `K`. -/
theorem agent_loop_exhausts_after_K_steps (env : PyEnv) (gen : Nat → GenResult)
    (sandbox : Nat → SandboxOutcome) (K : Nat) (init_messages : List ChatMsg)
    (est : ExecutorState)
    (hnc : ∀ n, outcomeSignalsCompletion (sandbox n) = false) :
    Agent_run env gen sandbox K init_messages est =
      (exhaustedMsg,
       (stepIter env gen sandbox 0 K (init_messages, est)).1.drop init_messages.length) :=
  runAux_exhausts env gen sandbox K init_messages.length hnc K 0 init_messages est (by omega)

def env0 : PyEnv := ⟨id, fun _ => none⟩

def gen0 : Nat → GenResult := fun _ => .ok "think".toList

def sandbox0 : Nat → SandboxOutcome := fun _ => .ok ⟨[], none, false, []⟩

/-- C1 witness: with `K = 2` and a generator that never produces code,
the run performs exactly two iterations and returns the sentinel with
the four generated messages. -/
theorem agent_loop_exhausts_witness :
    Agent_run env0 gen0 sandbox0 2 [] ⟨[], []⟩ =
      (exhaustedMsg,
       [⟨"assistant", "think".toList⟩, ⟨"user", noCodeMsg⟩,
        ⟨"assistant", "think".toList⟩, ⟨"user", noCodeMsg⟩]) := by
  rw [agent_loop_exhausts_after_K_steps env0 gen0 sandbox0 2 [] ⟨[], []⟩ (fun n => rfl)]
  decide

/-- C4.  The completion signal is distinguished from execution failure
before terminating: when executed code raises the final-answer escape,
`CodeExecutor.execute` returns the `FinalAnswerException` object itself
— also when the interpreter wrapped it, by unwrapping the exception's
`__context__` — rather than a failure string; any other raised
exception yields an `Execution Error:` failure string, never a
completion; and `Agent.run`, upon executing a (non-empty, per the
truthiness test of line 248 — an empty fenced block is never executed)
code block and observing a `FinalAnswerException` outcome, immediately
returns the string form of its answer together with only the messages
generated during this invocation. -/
theorem completion_signal_distinguished :
    (∀ env st code a,
      (CodeExecutor_execute env st code (.raiseFinal a)).2 = .finalAns a) ∧
    (∀ env st code m a,
      (CodeExecutor_execute env st code (.raiseOther m (some a))).2 = .finalAns a) ∧
    (∀ env st code m,
      (CodeExecutor_execute env st code (.raiseOther m none)).2 =
        .text ("Execution Error: ".toList ++ m)) ∧
    (∀ env gen sandbox K initc fuel msgs c est resp code a,
      c < K → gen c = .ok resp → (parse_step resp).code = some code →
      code.isEmpty = false →
      sandbox c = .raiseFinal a →
      runAux env gen sandbox K initc (fuel + 1) msgs c est =
        (String.mk a, (msgs ++ [ChatMsg.mk "assistant" resp]).drop initc)) := by
  refine ⟨fun _ _ _ _ => rfl, fun _ _ _ _ _ => rfl, fun _ _ _ _ => rfl, ?_⟩
  intro env gen sandbox K initc fuel msgs c est resp code a hc hg hp hemp hs
  rw [runAux, if_pos hc, hg]
  dsimp only
  rw [hp]
  dsimp only
  rw [if_pos (by simp [hemp])]
  have hr2 : (CodeExecutor_execute env est code (sandbox c)).2 = .finalAns a := by
    rw [hs]
    rfl
  rw [hr2]

def respC4 : List Char := "I know.\n```python\nfinal_answer(42)\n```".toList

def genC4 : Nat → GenResult := fun _ => .ok respC4

def sandboxC4 : Nat → SandboxOutcome := fun _ => .raiseFinal "42".toList

/-- C4 witness: concrete sandbox behaviours for the three exception
paths, and a concrete run whose first code step raises the
final-answer escape and returns `"42"` with just the assistant turn. -/
theorem completion_signal_distinguished_witness :
    (CodeExecutor_execute env0 ⟨[], []⟩ "x".toList (.raiseFinal "42".toList)).2 =
      .finalAns "42".toList ∧
    (CodeExecutor_execute env0 ⟨[], []⟩ "x".toList (.raiseOther "err".toList (some "7".toList))).2 =
      .finalAns "7".toList ∧
    (CodeExecutor_execute env0 ⟨[], []⟩ "x".toList (.raiseOther "boom".toList none)).2 =
      .text "Execution Error: boom".toList ∧
    runAux env0 genC4 sandboxC4 3 0 3 [] 0 ⟨[], []⟩ = ("42", [⟨"assistant", respC4⟩]) := by
  refine ⟨completion_signal_distinguished.1 env0 ⟨[], []⟩ "x".toList "42".toList,
    completion_signal_distinguished.2.1 env0 ⟨[], []⟩ "x".toList "err".toList "7".toList,
    (completion_signal_distinguished.2.2.1 env0 ⟨[], []⟩ "x".toList "boom".toList).trans
      (by decide), ?_⟩
  exact (completion_signal_distinguished.2.2.2 env0 genC4 sandboxC4 3 0 2 [] 0 ⟨[], []⟩
    respC4 "final_answer(42)".toList "42".toList (by omega) rfl (by decide) (by decide)
    rfl).trans (by decide)

/-- C6.  Execution failures are never fatal to the loop: when a
(non-empty — only truthy code blocks reach the sandbox, per the
line-248 test) code step's execution raises an ordinary error,
`execute` returns a failure string containing the error detail, and
`Agent.run` appends `Observation:` plus that detail verbatim as the
next turn's user-role message, increments the step counter by one, and
continues iterating (the run's value is the recursive call on the
extended transcript, not a return). -/
theorem execution_failure_not_fatal (env : PyEnv) (gen : Nat → GenResult)
    (sandbox : Nat → SandboxOutcome) (K initc fuel : Nat) (msgs : List ChatMsg)
    (c : Nat) (est : ExecutorState) (resp code m : List Char)
    (hc : c < K) (hg : gen c = .ok resp) (hp : (parse_step resp).code = some code)
    (hemp : code.isEmpty = false) (hs : sandbox c = .raiseOther m none) :
    (CodeExecutor_execute env est code (sandbox c)).2 =
      .text ("Execution Error: ".toList ++ m) ∧
    runAux env gen sandbox K initc (fuel + 1) msgs c est =
      runAux env gen sandbox K initc fuel
        (msgs ++ [ChatMsg.mk "assistant" resp,
          ChatMsg.mk "user" ("Observation: Execution Error: ".toList ++ m)])
        (c + 1) (CodeExecutor_execute env est code (sandbox c)).1 := by
  have hr2 : (CodeExecutor_execute env est code (sandbox c)).2 =
      .text ("Execution Error: ".toList ++ m) := by
    rw [hs]
    rfl
  refine ⟨hr2, ?_⟩
  rw [runAux, if_pos hc, hg]
  dsimp only
  rw [hp]
  dsimp only
  rw [if_pos (by simp [hemp])]
  rw [hr2]
  dsimp only
  have hobs : "Observation: ".toList ++ ("Execution Error: ".toList ++ m) =
      "Observation: Execution Error: ".toList ++ m := by
    rw [← List.append_assoc]
    rfl
  rw [hobs, List.append_assoc]
  rfl

def genC6 : Nat → GenResult := fun _ => .ok respC4

def sandboxC6 : Nat → SandboxOutcome := fun _ => .raiseOther "NameError".toList none

/-- C6 witness: a concrete failing execution (`NameError`) produces the
failure string and the loop continues with the verbatim observation
appended. -/
theorem execution_failure_not_fatal_witness :
    (CodeExecutor_execute env0 ⟨[], []⟩ "final_answer(42)".toList (sandboxC6 0)).2 =
      .text "Execution Error: NameError".toList ∧
    runAux env0 genC6 sandboxC6 5 0 3 [] 0 ⟨[], []⟩ =
      runAux env0 genC6 sandboxC6 5 0 2
        [ChatMsg.mk "assistant" respC4,
         ChatMsg.mk "user" "Observation: Execution Error: NameError".toList]
        1 (CodeExecutor_execute env0 ⟨[], []⟩ "final_answer(42)".toList (sandboxC6 0)).1 := by
  have h := execution_failure_not_fatal env0 genC6 sandboxC6 5 0 2 [] 0 ⟨[], []⟩
    respC4 "final_answer(42)".toList "NameError".toList (by omega) rfl (by decide)
    (by decide) rfl
  exact ⟨h.1.trans (by decide), h.2.trans (by decide)⟩

/-- C9 amended: in the backend `Agent.run`
(backend/app/agent/agent.py lines 261-269) a parsed step whose code is
falsy — absent, or the empty string left by an empty fenced block, the
two cases of the line-248 test `if step_data.code:` — gets an explicit
corrective user-role instruction, with no sandbox call: the message
states that no code block was provided and that code must be emitted,
and the loop continues; the legacy variant (src/agent.py), by
contrast, appends the lenient "Proceed" message (see the
counterexample). -/
theorem no_code_step_gets_corrective_instruction (env : PyEnv) (gen : Nat → GenResult)
    (sandbox : Nat → SandboxOutcome) (K initc fuel : Nat) (msgs : List ChatMsg)
    (c : Nat) (est : ExecutorState) (resp : List Char)
    (hc : c < K) (hg : gen c = .ok resp)
    (hp : codeTruthy (parse_step resp).code = false) :
    noCodeMsg =
      ("Error: You did not provide any code block. You must output code in a " ++
        "```python ... ``` block. If you have the answer, use " ++
        "`final_answer('...')` inside a code block.").toList ∧
    runAux env gen sandbox K initc (fuel + 1) msgs c est =
      runAux env gen sandbox K initc fuel
        (msgs ++ [ChatMsg.mk "assistant" resp, ChatMsg.mk "user" noCodeMsg])
        (c + 1) est := by
  refine ⟨by decide, ?_⟩
  rw [runAux, if_pos hc, hg]
  dsimp only
  cases hcode : (parse_step resp).code with
  | none =>
    dsimp only
    rw [List.append_assoc]
    rfl
  | some code =>
    have hemp : code.isEmpty = true := by
      rw [hcode] at hp
      simpa [codeTruthy] using hp
    dsimp only
    rw [if_neg (by simp [hemp])]
    rw [List.append_assoc]
    rfl

/-- A generator whose response carries an empty fenced code block, so
the parsed code is the falsy empty string. -/
def genEmptyBlock : Nat → GenResult := fun _ => .ok "```python```".toList

/-- C9 amended witness: a step with no fenced block at all and a step
with an empty fenced block (falsy `code = ""`) both append exactly the
corrective message and continue. -/
theorem no_code_step_gets_corrective_instruction_witness :
    (runAux env0 gen0 sandbox0 5 0 3 [] 0 ⟨[], []⟩ =
      runAux env0 gen0 sandbox0 5 0 2
        [ChatMsg.mk "assistant" "think".toList, ChatMsg.mk "user" noCodeMsg]
        1 ⟨[], []⟩) ∧
    (runAux env0 genEmptyBlock sandbox0 5 0 3 [] 0 ⟨[], []⟩ =
      runAux env0 genEmptyBlock sandbox0 5 0 2
        [ChatMsg.mk "assistant" "```python```".toList, ChatMsg.mk "user" noCodeMsg]
        1 ⟨[], []⟩) := by
  have h1 := no_code_step_gets_corrective_instruction env0 gen0 sandbox0 5 0 2 [] 0 ⟨[], []⟩
    "think".toList (by omega) rfl (by decide)
  have h2 := no_code_step_gets_corrective_instruction env0 genEmptyBlock sandbox0 5 0 2 [] 0
    ⟨[], []⟩ "```python```".toList (by omega) rfl (by decide)
  exact ⟨h1.2.trans (by decide), h2.2.trans (by decide)⟩

/-! ## Legacy loop variant (Agent.run, src/agent.py)

The legacy standalone agent uses structured (schema-validated) steps.
Its executor (`src/executor.py`) returns plain strings for both normal
results and errors, so the loop's `isinstance(observation,
FinalAnswerException)` test never fires; the embedding reflects that by
giving the legacy execution call a string result.  The source function
returns only the final string; the embedding also exposes the final
message buffer so the appended turns can be stated. -/

inductive LegacyStep where
  | thoughtStep (content : List Char)
  | planStep (steps : List (List Char))
  | codeStep (code : Option (List Char))
  | finalAnswerStep (answer : List Char)
deriving Repr, DecidableEq

/-- One structured generation call of the legacy loop: the serialized
assistant content together with the decoded step, or a failure
(schema/transport error) with its traceback text. -/
inductive LegacyGen where
  | ok (raw : List Char) (step : LegacyStep)
  | genFail (err : List Char)
deriving Repr, DecidableEq

/-- The legacy `CodeExecutor.execute` (src/executor.py): `str(result)`
on success, an `Execution Error:` string on any raised exception. -/
inductive LegacySandbox where
  | ok (resultStr : List Char)
  | raiseErr (msg : List Char)
deriving Repr, DecidableEq

def legacyExecute : LegacySandbox → List Char
  | .ok s => s
  | .raiseErr m => "Execution Error: ".toList ++ m

/-- Embedding of the legacy `while step_count < self.max_steps` loop
(src/agent.py lines 64-146); fuel as in `runAux`. -/
def legacyRunAux (gen : Nat → LegacyGen) (sandbox : Nat → LegacySandbox) (max_steps : Nat) :
    Nat → List ChatMsg → Nat → String × List ChatMsg
  | 0, msgs, _ => ("Agent reached maximum steps without a final answer.", msgs)
  | fuel + 1, msgs, step_count =>
    if step_count < max_steps then
      match gen step_count with
      | .genFail e =>
        legacyRunAux gen sandbox max_steps fuel
          (msgs ++ [ChatMsg.mk "user"
            ("Error parsing your previous response: ".toList ++ e ++
              ". Please ensure valid JSON.".toList)])
          (step_count + 1)
      | .ok raw step =>
        let msgs := msgs ++ [ChatMsg.mk "assistant" raw]
        match step with
        | .finalAnswerStep a => (String.mk a, msgs)
        | .codeStep code =>
          -- `if code:` (src/agent.py line 111): a `None` or empty code
          -- string appends nothing and only the counter advances
          match code with
          | some c =>
            if !c.isEmpty then
              legacyRunAux gen sandbox max_steps fuel
                (msgs ++ [ChatMsg.mk "user"
                  ("Observation: ".toList ++ legacyExecute (sandbox step_count))])
                (step_count + 1)
            else legacyRunAux gen sandbox max_steps fuel msgs (step_count + 1)
          | none => legacyRunAux gen sandbox max_steps fuel msgs (step_count + 1)
        | .thoughtStep _ =>
          legacyRunAux gen sandbox max_steps fuel
            (msgs ++ [ChatMsg.mk "user" "Proceed".toList]) (step_count + 1)
        | .planStep _ =>
          legacyRunAux gen sandbox max_steps fuel
            (msgs ++ [ChatMsg.mk "user" "Proceed".toList]) (step_count + 1)
    else ("Agent reached maximum steps without a final answer.", msgs)

def legacyGen0 : Nat → LegacyGen :=
  fun _ => .ok "thought: hmm".toList (.thoughtStep "hmm".toList)

/-- C9 counterexample: in the legacy loop a `thought` step (a parsed
step with no code) appends the lenient `"Proceed"` user message — not a
corrective instruction about a missing code block — so the claim's
"never appends a lenient continue-style message" fails on
`src/agent.py` lines 128-133. -/
theorem thought_step_gets_proceed_counterexample :
    (legacyRunAux legacyGen0 (fun _ => .ok []) 1 1 [] 0).2 =
      [ChatMsg.mk "assistant" "thought: hmm".toList,
       ChatMsg.mk "user" "Proceed".toList] ∧
    "Proceed".toList ≠ noCodeMsg := by
  constructor <;> decide

/-! ## SessionRehydrator (Agent.__init__, backend/app/agent/agent.py lines 53-101) -/

/-- Python `"\n".join(...)`. -/
def joinNL : List (List Char) → List Char
  | [] => []
  | [x] => x
  | x :: rest => x ++ ('\n' :: joinNL rest)

/-- The `injected_code` built by `Agent.__init__` (lines 66-79): all
persisted import statements joined by newlines first (when any), then
every persisted function source, each followed by a blank line. -/
def buildInjectedCode (previous_imports : List (List Char))
    (previous_functions : List (String × List Char)) : List Char :=
  let injected := if !previous_imports.isEmpty then
      joinNL previous_imports ++ "\n\n".toList
    else []
  previous_functions.foldl (fun acc p => acc ++ p.2 ++ "\n\n".toList) injected

/-- Modelled from the spec: the sandbox execution capability (smolagents
`LocalPythonExecutor`) is an external collaborator whose internals are
out of scope; per spec section 4.4 executing the combined text against a
freshly created sandbox "rebuilds the namespace", i.e. every top-level
function definition occurring in the executed text becomes a defined
name bound to that definition's source.  The namespace is modelled as
the map from defined names to their source spans in the executed
text. -/
def sandboxNamespaceAfter (env : PyEnv) (text : List Char) : List (String × List Char) :=
  (extract_definitions env text).1

def parseNatAcc : List Char → Nat → Nat
  | [], acc => acc
  | c :: rest, acc =>
    if c.isDigit then parseNatAcc rest (acc * 10 + (c.toNat - '0'.toNat)) else acc

/-- Modelled from the spec: Python function application inside the
sandbox is external; the spec's round-trip property only calls a
persisted single-parameter function whose body is `return x + c`, so a
micro-evaluator for exactly that shape suffices: calling such a
function at `arg` yields `arg + c`. -/
def evalLinearFn (src : List Char) (arg : Nat) : Option Nat :=
  match findSub "return x + ".toList src with
  | some i => some (arg + parseNatAcc (src.drop (i + "return x + ".length)) 0)
  | none => none

/-- The state `Agent.__init__` (lines 53-101) establishes before the
loop ever runs user code: the injected code is built (imports first,
then functions), executed exactly once against the freshly created
sandbox (`outcome` is that single execution's behaviour; the namespace
it leaves is the modelled `sandbox_ns`), and then the persisted
functions and imports are merged into the executor's tracking state. -/
structure AgentInitResult where
  exec_state : ExecutorState
  sandbox_ns : List (String × List Char)
deriving Repr, DecidableEq

def Agent_init (env : PyEnv) (previous_functions : List (String × List Char))
    (previous_imports : List (List Char)) (outcome : SandboxOutcome) : AgentInitResult :=
  let injected_code := buildInjectedCode previous_imports previous_functions
  let st0 : ExecutorState := ⟨[], []⟩
  let st1 := (CodeExecutor_execute env st0 injected_code outcome).1
  let st2 : ExecutorState :=
    ⟨previous_functions.foldl (fun acc p => updateAssoc acc p.1 p.2) st1.defined_functions,
     previous_imports.foldl addImport st1.defined_imports⟩
  ⟨st2, sandboxNamespaceAfter env injected_code⟩

/-- The round-trip function source of the spec's test property. -/
def fDefSrc : List Char := "def f(x): return x + 999".toList

/-- C5.  Round-trip across turns, for a parser oracle that reads
`def f(x): return x + 999` as Python's grammar does (one top-level
one-line function definition): extraction records `f` mapped to its
verbatim source; constructing a new `Agent` from the persisted set
concatenates all persisted imports first and then all persisted
function sources, each separated by a blank line, executes that
combined text exactly once against the freshly created sandbox, and
afterwards `f` is defined in the new sandbox namespace with semantics
`f(1) = 1000` — all before any new user code runs (`Agent.__init__`
performs the single injection execution; the loop only runs later). -/
theorem definition_roundtrip (env : PyEnv) (outcome : SandboxOutcome)
    (h1 : env.dedent fDefSrc = fDefSrc)
    (h2 : env.pyparse fDefSrc = some [PyStmt.funcDefn "f" 1 1 []])
    (h3 : env.dedent (fDefSrc ++ "\n\n".toList) = fDefSrc ++ "\n\n".toList)
    (h4 : env.pyparse (fDefSrc ++ "\n\n".toList) = some [PyStmt.funcDefn "f" 1 1 []]) :
    (extract_definitions env fDefSrc).1 = [("f", fDefSrc)] ∧
    buildInjectedCode [] [("f", fDefSrc)] = fDefSrc ++ "\n\n".toList ∧
    (∃ src, List.lookup "f" (Agent_init env [("f", fDefSrc)] [] outcome).sandbox_ns = some src ∧
      evalLinearFn src 1 = some 1000) := by
  refine ⟨?_, by decide, ?_⟩
  · rw [extract_definitions, h1, h2]
    decide
  · refine ⟨fDefSrc ++ ['\n'], ?_, by decide⟩
    have hinj : buildInjectedCode [] [("f", fDefSrc)] = fDefSrc ++ "\n\n".toList := by decide
    show List.lookup "f" (sandboxNamespaceAfter env (buildInjectedCode [] [("f", fDefSrc)])) = _
    rw [hinj, sandboxNamespaceAfter, extract_definitions, h3, h4]
    decide

def envC5 : PyEnv :=
  { dedent := id
    pyparse := fun s =>
      if s = fDefSrc then some [PyStmt.funcDefn "f" 1 1 []]
      else if s = fDefSrc ++ "\n\n".toList then some [PyStmt.funcDefn "f" 1 1 []]
      else none }

/-- C5 witness: the concrete oracle `envC5` parses the two texts as
Python does, and the round-trip holds. -/
theorem definition_roundtrip_witness :
    (extract_definitions envC5 fDefSrc).1 = [("f", fDefSrc)] ∧
    buildInjectedCode [] [("f", fDefSrc)] = fDefSrc ++ "\n\n".toList ∧
    (∃ src, List.lookup "f"
        (Agent_init envC5 [("f", fDefSrc)] [] (.ok ⟨[], none, false, []⟩)).sandbox_ns = some src ∧
      evalLinearFn src 1 = some 1000) :=
  definition_roundtrip envC5 (.ok ⟨[], none, false, []⟩) rfl rfl rfl rfl

end RootAgent
